import Mathlib

/-!
Verification of the content-inlining engine of unplugin-inline-source.

Texts are modelled as `List Char` (JS strings are sequences of UTF-16 units;
all inputs of interest here are plain character sequences).  The JS regular
expressions used by the source are embedded as a small backtracking matcher
(`RE`/`mmatch`) whose constructs cover exactly the features those patterns
use: literal characters (case-insensitive under the i flag), character
classes, greedy and lazy repetition, optionals, alternation, capture groups
and word boundaries.  Recursion is fuelled so that every definition is a
plain structural recursion and evaluates by kernel reduction; the fuel
bounds are generous enough that they are never the limiting factor on the
inputs appearing in this development.
-/

namespace InlineSource

def str (s : String) : List Char := s.data

/-- Single-quote character, used when assembling generated code. -/
def sq : Char := '\x27'

/-- JS word character for the w class and word boundaries: [A-Za-z0-9_]. -/
def isWordCh (c : Char) : Bool :=
  (('a' ≤ c && c ≤ 'z') || ('A' ≤ c && c ≤ 'Z') || ('0' ≤ c && c ≤ '9') || c = '_')

/-- Character class [w-] used by the attribute grammar. -/
def isWordDash (c : Char) : Bool := isWordCh c || c = '-'

/-- JS whitespace class s (ASCII part plus the common Unicode members). -/
def isJsSpace (c : Char) : Bool :=
  c = ' ' || c = '\t' || c = '\n' || c = '\r' || c = '\x0b' || c = '\x0c' ||
  c.toNat = 0xa0 || c.toNat = 0x1680 ||
  (0x2000 ≤ c.toNat && c.toNat ≤ 0x200a) ||
  c.toNat = 0x2028 || c.toNat = 0x2029 || c.toNat = 0x202f ||
  c.toNat = 0x205f || c.toNat = 0x3000 || c.toNat = 0xfeff

/-- Case-insensitive character comparison (ASCII folding, as used by the i flag
on the ASCII-only patterns of the source). -/
def ciEq (a b : Char) : Bool := a.toLower = b.toLower

/-- Generic character-by-character startsWith under an equality test. -/
def startsW (eqf : Char → Char → Bool) : List Char → List Char → Bool
  | [], _ => true
  | _ :: _, [] => false
  | p :: ps, c :: cs => eqf c p && startsW eqf ps cs

/-- Generic substring containment under an equality test. -/
def containsW (eqf : Char → Char → Bool) (pat : List Char) : List Char → Bool
  | [] => startsW eqf pat []
  | c :: cs => startsW eqf pat (c :: cs) || containsW eqf pat cs

def eqCh (a b : Char) : Bool := a = b

def containsLit (pat s : List Char) : Bool := containsW eqCh pat s

def containsCI (pat s : List Char) : Bool := containsW ciEq pat s

/-- The slice of `full` from position `a` (inclusive) to `b` (exclusive),
with JS slice clamping. -/
def extractRange (full : List Char) (a b : Nat) : List Char :=
  (full.drop a).take (b - a)

/-- Join a list of pieces with a separator (used for JS Array.join). -/
def joinWith (sep : List Char) : List (List Char) → List Char
  | [] => []
  | [x] => x
  | x :: y :: xs => x ++ sep ++ joinWith sep (y :: xs)

/-- Decimal digit character of `n % 10`. -/
def decDigit (n : Nat) : Char :=
  match n % 10 with
  | 0 => '0' | 1 => '1' | 2 => '2' | 3 => '3' | 4 => '4'
  | 5 => '5' | 6 => '6' | 7 => '7' | 8 => '8' | _ => '9'

/-- Decimal representation of a natural number (fuelled auxiliary). -/
def natToDecAux : Nat → Nat → List Char
  | 0, _ => []
  | f + 1, n =>
    if n < 10 then [decDigit n]
    else natToDecAux f (n / 10) ++ [decDigit n]

/-- Decimal representation of a natural number, as produced by JS template
interpolation of a number. -/
def natToDec (n : Nat) : List Char := natToDecAux (n + 1) n

/-! ## The regex matcher -/

abbrev Caps := List (Option (List Char))

inductive RE where
  | eps : RE
  | cls : (Char → Bool) → RE
  | seq : RE → RE → RE
  | alt : RE → RE → RE
  | star : Bool → RE → RE
  | opt : RE → RE
  | grp : Nat → RE → RE
  | wb : RE

def initCaps : Caps := List.replicate 6 none

/-- Word-boundary test: prev is the character before the current position. -/
def atWb (prev : Option Char) (s : List Char) : Bool :=
  let a := match prev with | some c => isWordCh c | none => false
  let b := match s with | c :: _ => isWordCh c | [] => false
  a != b

/-- Backtracking matcher in continuation-passing style.  The continuation
receives the remaining input, the new previous-character context and the
captures.  `star` is lazy when its flag is true; an iteration of a `star`
body that consumes nothing ends the repetition (the ES rule that stops
empty-match loops).  Fuel bounds the recursion depth only; it decreases at
every recursive call, so the definition is structural and kernel-reducible. -/
def mmatch {α : Type} : Nat → RE → List Char → Option Char → Caps →
    (List Char → Option Char → Caps → Option α) → Option α
  | 0, _, _, _, _, _ => none
  | _ + 1, RE.eps, s, prev, caps, k => k s prev caps
  | _ + 1, RE.cls p, s, _, caps, k =>
    match s with
    | [] => none
    | c :: rest => if p c then k rest (some c) caps else none
  | fuel + 1, RE.seq a b, s, prev, caps, k =>
    mmatch fuel a s prev caps (fun s1 p1 c1 => mmatch fuel b s1 p1 c1 k)
  | fuel + 1, RE.alt a b, s, prev, caps, k =>
    match mmatch fuel a s prev caps k with
    | some r => some r
    | none => mmatch fuel b s prev caps k
  | fuel + 1, RE.opt r, s, prev, caps, k =>
    match mmatch fuel r s prev caps k with
    | some r2 => some r2
    | none => k s prev caps
  | fuel + 1, RE.star lz r, s, prev, caps, k =>
    if lz then
      match k s prev caps with
      | some r2 => some r2
      | none =>
        mmatch fuel r s prev caps (fun s1 p1 c1 =>
          if s1.length < s.length then mmatch fuel (RE.star lz r) s1 p1 c1 k else none)
    else
      match mmatch fuel r s prev caps (fun s1 p1 c1 =>
          if s1.length < s.length then mmatch fuel (RE.star lz r) s1 p1 c1 k else none) with
      | some r2 => some r2
      | none => k s prev caps
  | fuel + 1, RE.grp i r, s, prev, caps, k =>
    mmatch fuel r s prev caps (fun s1 p1 c1 =>
      k s1 p1 (c1.set i (some (s.take (s.length - s1.length)))))
  | _ + 1, RE.wb, s, prev, caps, k =>
    if atWb prev s then k s prev caps else none

/-- One match found by the scanner: start index, length, matched text and
captures (index i of `caps` is group i). -/
structure MatchRes where
  idx : Nat
  len : Nat
  whole : List Char
  caps : Caps
  deriving DecidableEq

def mfuel (s : List Char) : Nat := 8 * s.length + 200

/-- Leftmost match search: try the regex at each successive position. -/
def findAux (re : RE) : Option Char → List Char → Nat → Option MatchRes
  | prev, s, pos =>
    match mmatch (mfuel s) re s prev initCaps
        (fun s1 _ c1 => some (s.length - s1.length, c1)) with
    | some (len, caps) => some ⟨pos, len, s.take len, caps⟩
    | none =>
      match s with
      | [] => none
      | c :: rest => findAux re (some c) rest (pos + 1)

def prevAt (full : List Char) (pos : Nat) : Option Char :=
  if pos = 0 then none else (full.drop (pos - 1)).head?

/-- Search for the leftmost match at or after `pos` (no match is reported
from positions beyond the end of the input, as with lastIndex in JS). -/
def findAt (re : RE) (full : List Char) (pos : Nat) : Option MatchRes :=
  if pos ≤ full.length then findAux re (prevAt full pos) (full.drop pos) pos else none

/-- Successive non-overlapping matches, advancing past each match (by one
position when a match is empty, the ES AdvanceStringIndex rule). -/
def scanGo (re : RE) (full : List Char) : Nat → Nat → List MatchRes
  | 0, _ => []
  | fuel + 1, pos =>
    match findAt re full pos with
    | none => []
    | some m => m :: scanGo re full fuel (m.idx + max m.len 1)

/-- All matches of a global regex over the input; this is the engine behind
collectMatches and the global-replace loops of the source. -/
def scanAll (re : RE) (full : List Char) : List MatchRes :=
  scanGo re full (full.length + 1) 0

/-! ## Regex construction helpers -/

def chEx (c : Char) : RE := RE.cls (fun d => d = c)

def chCI (c : Char) : RE := RE.cls (fun d => ciEq d c)

def chNot (c : Char) : RE := RE.cls (fun d => ¬ d = c)

def reSeqL : List RE → RE
  | [] => RE.eps
  | [r] => r
  | r :: r2 :: rs => RE.seq r (reSeqL (r2 :: rs))

/-- A literal string, each character matched case-insensitively. -/
def litCI (cs : List Char) : RE := reSeqL (cs.map chCI)

/-- A literal string matched exactly. -/
def litEx (cs : List Char) : RE := reSeqL (cs.map chEx)

def rePlus (r : RE) : RE := RE.seq r (RE.star false r)

def capGet (m : MatchRes) (i : Nat) : Option (List Char) := m.caps.getD i none

/-! ## Attribute parser (core.ts parseAttributes / formatAttributes) -/

/-- The attribute-fragment token pattern
([w-]+)(?:s*=s*(?:"([^"]*)"|'([^']*)'|(S+)))?  (global, case-sensitive). -/
def attrRe : RE :=
  RE.seq (RE.grp 1 (rePlus (RE.cls isWordDash)))
    (RE.opt (reSeqL [
      RE.star false (RE.cls isJsSpace),
      chEx '=',
      RE.star false (RE.cls isJsSpace),
      RE.alt
        (reSeqL [chEx '"', RE.grp 2 (RE.star false (chNot '"')), chEx '"'])
        (RE.alt
          (reSeqL [chEx sq, RE.grp 3 (RE.star false (chNot sq)), chEx sq])
          (RE.grp 4 (rePlus (RE.cls (fun c => ¬ isJsSpace c)))))]))

def attrTokens (s : List Char) : List MatchRes := scanAll attrRe s

/-- m[2] ?? m[3] ?? m[4] ?? '' of one attribute token. -/
def tokenValue (m : MatchRes) : List Char :=
  match capGet m 2 with
  | some v => v
  | none =>
    match capGet m 3 with
    | some v => v
    | none => (capGet m 4).getD []

def tokenName (m : MatchRes) : List Char := (capGet m 1).getD []

/-- JS object property assignment: update the value in place if the key is
already present (keeping its position), else append. -/
def upsert : List (List Char × List Char) → List Char → List Char →
    List (List Char × List Char)
  | [], k, v => [(k, v)]
  | (k0, v0) :: rest, k, v =>
    if k0 = k then (k0, v) :: rest else (k0, v0) :: upsert rest k v

/-- parseAttributes from core.ts: run the token pattern over the fragment and
assign each name its value (last assignment wins). -/
def parseAttributes (s : List Char) : List (List Char × List Char) :=
  (attrTokens s).foldl (fun acc m => upsert acc (tokenName m) (tokenValue m)) []

def lookupA : List (List Char × List Char) → List Char → Option (List Char)
  | [], _ => none
  | (k0, v) :: rest, k => if k0 = k then some v else lookupA rest k

/-- JS `key in obj`. -/
def hasKey (l : List (List Char × List Char)) (k : List Char) : Bool :=
  (lookupA l k).isSome

/-- formatAttributes from core.ts. -/
def formatAttributes (attrs : List (List Char × List Char))
    (excl : List (List Char)) : List Char :=
  let parts := attrs.filterMap (fun kv =>
    if excl.contains kv.1 then none
    else some (if kv.2 = [] then kv.1 else kv.1 ++ '=' :: '"' :: (kv.2 ++ ['"'])))
  if parts = [] then [] else ' ' :: joinWith [' '] parts

/-! ## Component-source transform (core.ts transformJsx) -/

/-- The local binding name minted for the n-th accepted match. -/
def inlineVar (n : Nat) : List Char := str "__inline_" ++ natToDec n

/-- The generated import statement binding a variable to a module path. -/
def importLine (v path : List Char) : List Char :=
  str "import " ++ v ++ str " from " ++ sq :: (path ++ [sq])

/-- Pattern of the transformJsx cheap pre-check
<(?:script|link)b[^>]*b(attr)b  (i flag; the attribute name is
interpolated as literal characters). -/
def testReJsx (attr : List Char) : RE :=
  reSeqL [chEx '<', RE.alt (litCI (str "script")) (litCI (str "link")), RE.wb,
    RE.star false (chNot '>'), RE.wb, litCI attr, RE.wb]

/-- Pattern of the transformJsx script pass
<scriptb([^>]*)b(attr)b([^>]*)(?:/>|>([sS]*?)</script>)  (gi). -/
def scriptReJsx (attr : List Char) : RE :=
  reSeqL [litCI (str "<script"), RE.wb, RE.grp 1 (RE.star false (chNot '>')),
    RE.wb, litCI attr, RE.wb, RE.grp 2 (RE.star false (chNot '>')),
    RE.alt (litCI (str "/>"))
      (reSeqL [chEx '>', RE.grp 3 (RE.star true (RE.cls (fun _ => true))),
        litCI (str "</script>")])]

/-- Pattern of the transformJsx link pass
<linkb([^>]*)b(attr)b([^>]*?)/?>  (gi). -/
def linkReJsx (attr : List Char) : RE :=
  reSeqL [litCI (str "<link"), RE.wb, RE.grp 1 (RE.star false (chNot '>')),
    RE.wb, litCI attr, RE.wb, RE.grp 2 (RE.star true (chNot '>')),
    RE.opt (chEx '/'), chEx '>']

/-- Global replace with a callback threading a state, as JS String.replace
with a replacer function: all matches are located, then each replacer runs
left to right and its result is spliced in place of the match. -/
def assembleCB {σ : Type} (full : List Char) (cb : MatchRes → σ → List Char × σ) :
    Nat → List MatchRes → σ → List Char × σ
  | pos, [], st => (full.drop pos, st)
  | pos, m :: ms, st =>
    let p := cb m st
    let q := assembleCB full cb (m.idx + m.len) ms p.2
    (extractRange full pos m.idx ++ p.1 ++ q.1, q.2)

def replaceCB {σ : Type} (re : RE) (full : List Char)
    (cb : MatchRes → σ → List Char × σ) (st : σ) : List Char × σ :=
  assembleCB full cb 0 (scanAll re full) st

/-- State of the transformJsx rewrite: the running counter and the
emitted import statements. -/
abbrev JsxState := Nat × List (List Char)

/-- Replacer of the transformJsx script pass. -/
def scriptCbJsx (attr qraw : List Char) (m : MatchRes) (st : JsxState) :
    List Char × JsxState :=
  let attrStr := (capGet m 1).getD [] ++ attr ++ (capGet m 2).getD []
  let attrs := parseAttributes attrStr
  if hasKey attrs attr && hasKey attrs (str "src") then
    let varName := inlineVar st.1
    let imp := importLine varName ((lookupA attrs (str "src")).getD [] ++ qraw)
    let remaining := formatAttributes attrs [attr, str "src"]
    (str "<script" ++ remaining ++ str " dangerouslySetInnerHTML=\x7b\x7b__html: "
      ++ varName ++ str "\x7d\x7d></script>", (st.1 + 1, st.2 ++ [imp]))
  else (m.whole, st)

/-- Replacer of the transformJsx link pass. -/
def linkCbJsx (attr qinline : List Char) (m : MatchRes) (st : JsxState) :
    List Char × JsxState :=
  let attrStr := (capGet m 1).getD [] ++ attr ++ (capGet m 2).getD []
  let attrs := parseAttributes attrStr
  if hasKey attrs attr && decide (lookupA attrs (str "rel") = some (str "stylesheet"))
      && hasKey attrs (str "href") then
    let varName := inlineVar st.1
    let imp := importLine varName ((lookupA attrs (str "href")).getD [] ++ qinline)
    let remaining := formatAttributes attrs [attr, str "rel", str "href"]
    (str "<style" ++ remaining ++ str " dangerouslySetInnerHTML=\x7b\x7b__html: "
      ++ varName ++ str "\x7d\x7d />", (st.1 + 1, st.2 ++ [imp]))
  else (m.whole, st)

/-- transformJsx from core.ts, instrumented to also expose the
generated import list and the final counter. -/
def transformJsxCore (code attr qraw qinline : List Char) :
    Option (List Char) × List (List Char) × Nat :=
  if (findAt (testReJsx attr) code 0).isSome then
    let p1 := replaceCB (scriptReJsx attr) code (scriptCbJsx attr qraw) (0, [])
    let p2 := replaceCB (linkReJsx attr) p1.1 (linkCbJsx attr qinline) p1.2
    if p2.2.2 = [] then (none, p2.2.2, p2.2.1)
    else (some (joinWith ['\n'] p2.2.2 ++ '\n' :: p2.1), p2.2.2, p2.2.1)
  else (none, [], 0)

def transformJsx (code attr qraw qinline : List Char) : Option (List Char) :=
  (transformJsxCore code attr qraw qinline).1

/-- The imports generated by one transformJsx run. -/
def jsxImports (code attr qraw qinline : List Char) : List (List Char) :=
  (transformJsxCore code attr qraw qinline).2.1

/-! ## Direct markup transform (core.ts transformHtml) -/

/-- Pattern of the transformHtml script pass
<scriptb([^>]*)>([sS]*?)</script>  (gi). -/
def scriptReHtml : RE :=
  reSeqL [litCI (str "<script"), RE.wb, RE.grp 1 (RE.star false (chNot '>')),
    chEx '>', RE.grp 2 (RE.star true (RE.cls (fun _ => true))), litCI (str "</script>")]

/-- Pattern of the transformHtml link pass  <linkb([^>]*?)/?s*>  (gi). -/
def linkReHtml : RE :=
  reSeqL [litCI (str "<link"), RE.wb, RE.grp 1 (RE.star true (chNot '>')),
    RE.opt (chEx '/'), RE.star false (RE.cls isJsSpace), chEx '>']

/-- Global literal-pattern replacement (fuelled; the fuel is the input length
and each step consumes at least one character). -/
def replaceGo (eqf : Char → Char → Bool) (pat repl : List Char) :
    Nat → List Char → List Char
  | _, [] => []
  | 0, s => s
  | fuel + 1, c :: rest =>
    if startsW eqf pat (c :: rest) then
      repl ++ replaceGo eqf pat repl fuel (List.drop (pat.length - 1) rest)
    else c :: replaceGo eqf pat repl fuel rest

def replaceAllW (eqf : Char → Char → Bool) (pat repl s : List Char) : List Char :=
  replaceGo eqf pat repl s.length s

def closeScriptPat : List Char := str "</script>"

def escCloseRepl : List Char := str "<\\/script>"

/-- content.replace(/<(slash)script>/gi, a backslash-escaped close tag), the
escaping applied by transformHtml before inserting script content. -/
def escapeCloseScript (content : List Char) : List Char :=
  replaceAllW ciEq closeScriptPat escCloseRepl content

/-- result.slice(0, idx) + r + result.slice(idx + len). -/
def spliceText (s : List Char) (idx len : Nat) (r : List Char) : List Char :=
  s.take idx ++ r ++ s.drop (idx + len)

/-- One iteration of the transformHtml splice loops: the handler yields
either a replacement or nothing (the tag is left in place), plus any warning
emitted. -/
def spliceStep (handler : MatchRes → Option (List Char) × List (List Char)) :
    (List Char × List (List Char)) → MatchRes → (List Char × List (List Char))
  | (s, ws), m =>
    match handler m with
    | (none, w) => (s, ws ++ w)
    | (some r, w) => (spliceText s m.idx m.len r, ws ++ w)

/-- One pass of transformHtml: collect all matches, then process them in
reverse document order. -/
def processPass (re : RE) (handler : MatchRes → Option (List Char) × List (List Char))
    (s : List Char) : List Char × List (List Char) :=
  ((scanAll re s).reverse).foldl (spliceStep handler) (s, [])

def warnMsg (p : List Char) : List Char :=
  str "[unplugin-inline-source] Could not resolve: " ++ p

/-- Per-match logic of the transformHtml script pass. -/
def scriptHandlerHtml (attr : List Char) (resolve : List Char → Option (List Char))
    (m : MatchRes) : Option (List Char) × List (List Char) :=
  let attrs := parseAttributes ((capGet m 1).getD [])
  if hasKey attrs attr && hasKey attrs (str "src") then
    let src := (lookupA attrs (str "src")).getD []
    match resolve src with
    | none => (none, [warnMsg src])
    | some content =>
      let attrStr := formatAttributes attrs [attr, str "src"]
      (some (str "<script" ++ attrStr ++ '>' :: (escapeCloseScript content ++ str "</script>")), [])
  else (none, [])

/-- Per-match logic of the transformHtml link pass. -/
def linkHandlerHtml (attr : List Char) (resolve : List Char → Option (List Char))
    (m : MatchRes) : Option (List Char) × List (List Char) :=
  let attrs := parseAttributes ((capGet m 1).getD [])
  if hasKey attrs attr && decide (lookupA attrs (str "rel") = some (str "stylesheet"))
      && hasKey attrs (str "href") then
    let href := (lookupA attrs (str "href")).getD []
    match resolve href with
    | none => (none, [warnMsg href])
    | some content =>
      let attrStr := formatAttributes attrs [attr, str "rel", str "href"]
      (some (str "<style" ++ attrStr ++ '>' :: (content ++ str "</style>")), [])
  else (none, [])

/-- transformHtml from core.ts; the resolver is the supplied ResolveContent
collaborator and warnings are collected in emission order. -/
def transformHtml (html : List Char) (resolve : List Char → Option (List Char))
    (attrOpt : Option (List Char)) : List Char × List (List Char) :=
  let attr := attrOpt.getD (str "inline")
  let p1 := processPass scriptReHtml (scriptHandlerHtml attr resolve) html
  let p2 := processPass linkReHtml (linkHandlerHtml attr resolve) p1.1
  (p2.1, p1.2 ++ p2.2)

/-! ## Marker registry (index.ts registerMarker) -/

inductive FileKind where
  | js : FileKind
  | css : FileKind
  deriving DecidableEq

/-- InlineEntry from core.ts: source path, asset kind and the optional
emitted-artifact handle. -/
structure InlineEntry where
  filePath : List Char
  kind : FileKind
  refId : Option (List Char)
  deriving DecidableEq

/-- The marker token minted for counter value n: __INLINE_BUILD_n__. -/
def markerName (n : Nat) : List Char :=
  str "__INLINE_BUILD_" ++ natToDec n ++ str "__"

/-- JS Map.set semantics on an association list: overwrite in place, else
append. -/
def mapSet {β : Type} : List (List Char × β) → List Char → β → List (List Char × β)
  | [], k, v => [(k, v)]
  | (k0, v0) :: rest, k, v =>
    if k0 = k then (k0, v) :: rest else (k0, v0) :: mapSet rest k v

def mapGet {β : Type} : List (List Char × β) → List Char → Option β
  | [], _ => none
  | (k0, v) :: rest, k => if k0 = k then some v else mapGet rest k

/-- The per-session state owned by one plugin factory invocation: the marker
counter and the inline registry. -/
structure Session where
  markerCounter : Nat
  inlineRegistry : List (List Char × InlineEntry)
  deriving DecidableEq

def freshSession : Session := ⟨0, []⟩

/-- registerMarker from index.ts: mint the next token, record the entry and
advance the counter. -/
def registerMarker (sess : Session) (filePath : List Char) (k : FileKind) :
    List Char × Session :=
  let marker := markerName sess.markerCounter
  (marker, ⟨sess.markerCounter + 1,
    mapSet sess.inlineRegistry marker ⟨filePath, k, none⟩⟩)

/-- Run a sequence of registerMarker calls, returning the minted tokens in
call order. -/
def runRegisters : Session → List (List Char × FileKind) → List (List Char) × Session
  | sess, [] => ([], sess)
  | sess, (p, k) :: rest =>
    let r := registerMarker sess p k
    let q := runRegisters r.2 rest
    (r.1 :: q.1, q.2)

/-! ## Bundle model and marker finalization (inline-utils.ts) -/

/-- RollupOutput: a chunk (code plus the optional importedCss metadata of its
viteMetadata) or an asset with a textual source. -/
inductive ROutput where
  | chunk (code : List Char) (importedCss : Option (List (List Char))) : ROutput
  | asset (source : List Char) : ROutput
  deriving DecidableEq

abbrev Bundle := List (List Char × ROutput)

def bundleGet (b : Bundle) (k : List Char) : Option ROutput := mapGet b k

def bundleDel (b : Bundle) (k : List Char) : Bundle :=
  b.filter (fun kv => !decide (kv.1 = k))

def endsWithL (suf s : List Char) : Bool := startsW eqCh suf.reverse s.reverse

def endsWithCI (suf s : List Char) : Bool := startsW ciEq suf.reverse s.reverse

/-- getInlineFileType from inline-utils.ts: a .css extension (any case) is a
style asset, everything else a script. -/
def getInlineFileType (p : List Char) : FileKind :=
  if endsWithCI (str ".css") p then FileKind.css else FileKind.js

/-- node path.basename(p, ext): the last path segment, with the extension
stripped when it is a proper suffix. -/
def basenameExt (p ext : List Char) : List Char :=
  let base := (p.reverse.takeWhile (fun c => !decide (c = '/'))).reverse
  if endsWithL ext base && !decide (base = ext) then
    (base.reverse.drop ext.length).reverse
  else base

/-- First member of importedCss that is present in the bundle as an asset. -/
def findCssInImported (bundle : Bundle) : List (List Char) → Option (List Char × List Char)
  | [] => none
  | n :: rest =>
    match bundleGet bundle n with
    | some (ROutput.asset srcTxt) => some (srcTxt, n)
    | _ => findCssInImported bundle rest

/-- First bundle asset whose name ends in .css and contains the base name. -/
def findCssFallback (base : List Char) : Bundle → Option (List Char × List Char)
  | [] => none
  | (name, out) :: rest =>
    match out with
    | ROutput.asset srcTxt =>
      if endsWithL (str ".css") name && containsLit base name then some (srcTxt, name)
      else findCssFallback base rest
    | _ => findCssFallback base rest

/-- extractCssFromWrapper from inline-utils.ts: prefer the importedCss
metadata of the wrapper chunk, else scan assets for a name containing the
source base name; the asset supplying the content is removed. -/
def extractCssFromWrapper (bundle : Bundle) (entry : InlineEntry)
    (importedCss : Option (List (List Char))) : Option (List Char) × Bundle :=
  let fallback :=
    let base := basenameExt entry.filePath (str ".css")
    match findCssFallback base bundle with
    | some (content, name) => (some content, bundleDel bundle name)
    | none => (none, bundle)
  match importedCss with
  | some l =>
    if 0 < l.length then
      match findCssInImported bundle l with
      | some (content, name) => (some content, bundleDel bundle name)
      | none => fallback
    else fallback
  | none => fallback

/-- Lowercase hexadecimal digit character of `n % 16`. -/
def hexDigit (n : Nat) : Char :=
  match n % 16 with
  | 0 => '0' | 1 => '1' | 2 => '2' | 3 => '3' | 4 => '4' | 5 => '5' | 6 => '6'
  | 7 => '7' | 8 => '8' | 9 => '9' | 10 => 'a' | 11 => 'b' | 12 => 'c' | 13 => 'd'
  | 14 => 'e' | _ => 'f'

/-- JSON.stringify escaping of one character: the two-character escapes for
quote, backslash and the named control characters, a four-digit lowercase
hexadecimal u-escape for the remaining code points below 0x20, and the
character itself otherwise. -/
def jsonEscChar (c : Char) : List Char :=
  if c = '"' then ['\\', '"']
  else if c = '\\' then ['\\', '\\']
  else if c = '\x08' then str "\\b"
  else if c = '\t' then str "\\t"
  else if c = '\n' then str "\\n"
  else if c = '\x0c' then str "\\f"
  else if c = '\r' then str "\\r"
  else if c.toNat < 0x20 then
    str "\\u00" ++ [hexDigit (c.toNat / 16), hexDigit (c.toNat % 16)]
  else [c]

/-- JSON.stringify of a string value. -/
def jsonStringify (s : List Char) : List Char :=
  '"' :: ((s.map jsonEscChar).flatten ++ ['"'])

/-- The marker as it occurs in generated code: a double-quoted literal. -/
def markerQuoted (marker : List Char) : List Char := '"' :: (marker ++ ['"'])

/-- GetSubstitution of the ES string-replacement semantics, specialised to a
regex with no capture groups and no named captures: dollar-dollar yields one
dollar, dollar-ampersand the matched text, dollar-backquote the part of the
subject before the match, dollar-singlequote the part after it; any other
dollar (including dollar-digit, which with zero capture groups stays
literal) is emitted as is and scanning continues at the next character. -/
def getSubstitution (matched subj : List Char) (position : Nat) :
    List Char → List Char
  | [] => []
  | '$' :: c :: rest =>
    if c = '$' then '$' :: getSubstitution matched subj position rest
    else if c = '&' then matched ++ getSubstitution matched subj position rest
    else if c = '\x60' then
      subj.take position ++ getSubstitution matched subj position rest
    else if c = sq then
      subj.drop (position + matched.length) ++ getSubstitution matched subj position rest
    else '$' :: getSubstitution matched subj position (c :: rest)
  | c :: rest => c :: getSubstitution matched subj position rest

/-- Global literal-pattern replacement with a position-dependent replacement
text (fuelled like replaceGo); the second index argument is the current
match position within the original subject. -/
def replaceGoSub (pat : List Char) (mkRepl : Nat → List Char) :
    Nat → Nat → List Char → List Char
  | _, _, [] => []
  | 0, _, s => s
  | fuel + 1, pos, c :: rest =>
    if startsW eqCh pat (c :: rest) then
      mkRepl pos ++
        replaceGoSub pat mkRepl fuel (pos + pat.length) (List.drop (pat.length - 1) rest)
    else c :: replaceGoSub pat mkRepl fuel (pos + 1) rest

/-- replaceMarkerInText from bundler-helpers.ts: text.replace of a global
regex built from the quoted marker, with JSON.stringify(content) as a string
replacement.  Markers contain no pattern metacharacters, so the pattern is
the literal quoted marker; the string replacement goes through
GetSubstitution (the regex has no capture groups), with each match position
taken in the original text. -/
def replaceMarkerInText (text marker content : List Char) : List Char :=
  replaceGoSub (markerQuoted marker)
    (fun pos => getSubstitution (markerQuoted marker) text pos (jsonStringify content))
    text.length 0 text

/-- The final loop of replaceInlineMarkersInBundle: rewrite every chunk whose
code mentions the marker. -/
def replaceMarkerInChunks (bundle : Bundle) (marker content : List Char) : Bundle :=
  bundle.map (fun kv =>
    match kv.2 with
    | ROutput.chunk code icss =>
      if containsLit marker code then
        (kv.1, ROutput.chunk (replaceMarkerInText code marker content) icss)
      else kv
    | ROutput.asset _ => kv)

/-- Content acquisition for one registry entry: via the emitted-artifact
handle when possible (deleting consumed artifacts), else by reading the raw
file; a throwing getFileName is caught and ignored. -/
def obtainContent (bundle : Bundle) (entry : InlineEntry)
    (getFileName : List Char → Option (List Char))
    (readF : List Char → Option (List Char)) : Option (List Char) × Bundle :=
  let step :=
    match entry.refId with
    | none => (none, bundle)
    | some rid =>
      match getFileName rid with
      | none => (none, bundle)
      | some fn =>
        match bundleGet bundle fn with
        | some (ROutput.chunk code icss) =>
          let r :=
            match entry.kind with
            | FileKind.js => (some code, bundle)
            | FileKind.css => extractCssFromWrapper bundle entry icss
          (r.1, bundleDel r.2 fn)
        | _ => (none, bundle)
  match step.1 with
  | some c => (some c, step.2)
  | none => (readF entry.filePath, step.2)

/-- One iteration of replaceInlineMarkersInBundle: obtain content for the
marker, then substitute it everywhere; an entry without content is skipped. -/
def processInlineMarker (getFileName readF : List Char → Option (List Char))
    (bundle : Bundle) (mk : List Char × InlineEntry) : Bundle :=
  let r := obtainContent bundle mk.2 getFileName readF
  match r.1 with
  | none => r.2
  | some c => replaceMarkerInChunks r.2 mk.1 c

/-- replaceInlineMarkersInBundle from inline-utils.ts. -/
def replaceInlineMarkersInBundle (bundle : Bundle)
    (registry : List (List Char × InlineEntry))
    (getFileName readF : List Char → Option (List Char)) : Bundle :=
  registry.foldl (processInlineMarker getFileName readF) bundle

/-! ## Path resolution (inline-utils.ts resolveInlinePath) -/

def isAbsPath (p : List Char) : Bool :=
  match p with
  | '/' :: _ => true
  | _ => false

/-- Split a path on the separator. -/
def splitOnSlash (p : List Char) : List (List Char) :=
  p.foldr (fun c acc =>
    if c = '/' then [] :: acc
    else match acc with
      | [] => [[c]]
      | seg :: rest => (c :: seg) :: rest) [[]]

/-- Posix normalization of an absolute path: drop empty and dot segments,
let dot-dot pop (vanishing at the root). -/
def normStack : List (List Char) → List (List Char) → List (List Char)
  | stack, [] => stack.reverse
  | stack, seg :: rest =>
    if seg = [] || seg = ['.'] then normStack stack rest
    else if seg = ['.', '.'] then normStack stack.tail rest
    else normStack (seg :: stack) rest

def normAbs (p : List Char) : List Char :=
  '/' :: joinWith ['/'] (normStack [] (splitOnSlash p))

/-- node path.resolve(a, b) with an absolute working directory `cwd`: the
rightmost absolute component wins, relative components are appended, and the
result is normalized. -/
def nodeResolve (cwd a b : List Char) : List Char :=
  if isAbsPath b then normAbs b
  else if isAbsPath a then normAbs (a ++ '/' :: b)
  else normAbs (cwd ++ '/' :: (a ++ '/' :: b))

/-- JS line terminators (never crossed by dot in a regex). -/
def isLineTerm (c : Char) : Bool :=
  c = '\n' || c = '\r' || c.toNat = 0x2028 || c.toNat = 0x2029

/-- importer.replace of the query pattern (question mark, dot-star, end) with
the empty string: cut at the leftmost question mark from which dot-star can
reach the end of the input, i.e. whose remainder has no line terminator. -/
def stripQueryGo : List Char → Option (List Char)
  | [] => none
  | c :: rest =>
    if c = '?' && rest.all (fun d => !isLineTerm d) then some []
    else
      match stripQueryGo rest with
      | some tl => some (c :: tl)
      | none => none

def stripQuery (p : List Char) : List Char := (stripQueryGo p).getD p

/-- node path.dirname for posix paths (the algorithm of the node source:
skip trailing separators, cut before the rightmost remaining separator at
index one or later, with the root special cases). -/
def dirnamePosix (p : List Char) : List Char :=
  if p = [] then str "."
  else
    let hasRoot := isAbsPath p
    let r := p.reverse.dropWhile (fun c => decide (c = '/'))
    let rest := r.dropWhile (fun c => !decide (c = '/'))
    if rest.length ≤ 1 then (if hasRoot then str "/" else str ".")
    else if hasRoot && rest.length = 2 then str "//"
    else p.take (rest.length - 1)

/-- resolveInlinePath from inline-utils.ts. -/
def resolveInlinePath (cwd : List Char) (filePath : List Char)
    (importer : Option (List Char)) (root : List Char) : List Char :=
  if isAbsPath filePath then nodeResolve cwd root (filePath.drop 1)
  else
    match importer with
    | some imp => nodeResolve cwd (dirnamePosix (stripQuery imp)) filePath
    | none => nodeResolve cwd root filePath

/-! ## Decimal representation facts -/

/-- Numeric value of a decimal digit string (inverse of natToDec). -/
def decVal (s : List Char) : Nat := s.foldl (fun a c => 10 * a + (c.toNat - 48)) 0

theorem decDigit_val (n : Nat) : (decDigit n).toNat - 48 = n % 10 := by
  have h10 : n % 10 < 10 := Nat.mod_lt _ (by norm_num)
  unfold decDigit
  revert h10
  generalize n % 10 = m
  intro h10
  interval_cases m <;> decide

theorem natToDecAux_succ (f n : Nat) : natToDecAux (f + 1) n =
    if n < 10 then [decDigit n]
    else natToDecAux f (n / 10) ++ [decDigit n] := by
  conv_lhs => unfold natToDecAux

theorem natToDecAux_fuel : ∀ (f g n : Nat), n < f → n < g →
    natToDecAux f n = natToDecAux g n := by
  intro f
  induction f with
  | zero => intro g n h; omega
  | succ f ih =>
    intro g n hf hg
    cases g with
    | zero => omega
    | succ g =>
      rw [natToDecAux_succ, natToDecAux_succ]
      by_cases h : n < 10
      · rw [if_pos h, if_pos h]
      · rw [if_neg h, if_neg h]
        have hdiv : n / 10 < n := Nat.div_lt_self (by omega) (by omega)
        rw [ih g (n / 10) (by omega) (by omega)]

theorem natToDec_lt10 {n : Nat} (h : n < 10) : natToDec n = [decDigit n] := by
  rw [natToDec, natToDecAux_succ, if_pos h]

theorem natToDec_ge10 {n : Nat} (h : 10 ≤ n) :
    natToDec n = natToDec (n / 10) ++ [decDigit n] := by
  rw [natToDec, natToDecAux_succ, if_neg (Nat.not_lt.mpr h)]
  have hdiv : n / 10 < n := Nat.div_lt_self (by omega) (by omega)
  rw [natToDecAux_fuel n (n / 10 + 1) (n / 10) (by omega) (by omega)]
  rfl

theorem decVal_natToDec (n : Nat) : decVal (natToDec n) = n := by
  induction n using Nat.strong_induction_on with
  | _ n ih =>
    by_cases h : n < 10
    · rw [natToDec_lt10 h]
      have hd := decDigit_val n
      have hm : n % 10 = n := Nat.mod_eq_of_lt h
      simp only [decVal, List.foldl_cons, List.foldl_nil]
      omega
    · have h10 : 10 ≤ n := Nat.not_lt.mp h
      rw [natToDec_ge10 h10]
      have ihv := ih (n / 10) (Nat.div_lt_self (by omega) (by norm_num))
      have hd := decDigit_val n
      have hdm := Nat.div_add_mod n 10
      simp only [decVal] at ihv ⊢
      rw [List.foldl_append, List.foldl_cons, List.foldl_nil, ihv]
      omega

theorem natToDec_inj {m n : Nat} (h : natToDec m = natToDec n) : m = n := by
  have := congrArg decVal h
  rwa [decVal_natToDec, decVal_natToDec] at this

theorem markerName_inj {m n : Nat} (h : markerName m = markerName n) : m = n := by
  unfold markerName at h
  exact natToDec_inj (List.append_cancel_left (List.append_cancel_right h))

theorem runRegisters_tokens (reqs : List (List Char × FileKind)) :
    ∀ sess : Session, (runRegisters sess reqs).1 =
      (List.range reqs.length).map (fun i => markerName (sess.markerCounter + i)) := by
  induction reqs with
  | nil => intro sess; simp [runRegisters]
  | cons hd tl ih =>
    intro sess
    simp only [runRegisters, registerMarker, ih, List.length_cons,
      List.range_succ_eq_map, List.map_cons, List.map_map]
    refine congrArg₂ _ (by simp) (List.map_congr_left fun a _ => ?_)
    simp [Function.comp]
    exact congrArg markerName (by omega)

/-- Claim C2: within one session the minted marker tokens are pairwise
distinct and monotonically numbered from zero: the n-th registerMarker call
(counting from zero) returns the token __INLINE_BUILD_n__, and distinct
counters yield distinct tokens. -/
theorem claim2_markers_unique :
    (∀ reqs : List (List Char × FileKind), ∀ n : Nat,
        (runRegisters freshSession reqs).1[n]? =
          if n < reqs.length then some (markerName n) else none) ∧
    (∀ reqs : List (List Char × FileKind), (runRegisters freshSession reqs).1.Nodup) ∧
    (∀ m n : Nat, (markerName m = markerName n) ↔ m = n) := by
  refine ⟨fun reqs n => ?_, fun reqs => ?_, fun m n => ⟨markerName_inj, fun h => by rw [h]⟩⟩
  · rw [runRegisters_tokens]
    simp only [freshSession, List.getElem?_map]
    by_cases h : n < reqs.length
    · simp [List.getElem?_range, h]
    · simp [h, List.getElem?_eq_none, Nat.not_lt.mp h]
  · rw [runRegisters_tokens]
    exact (List.nodup_range _).map
      (fun a b hab => by simpa using markerName_inj hab)

/-! ## Claim C8: path resolution rule -/

/-- The resolution rule exactly as the specification words it: a path rooted
at a leading separator resolves against the project root with the separator
stripped; otherwise it resolves relative to the referencing module's
directory (query suffix stripped); with no referencing context it falls back
to the project root. -/
def resolveInlinePathSpec (cwd : List Char) (filePath : List Char)
    (importer : Option (List Char)) (root : List Char) : List Char :=
  if isAbsPath filePath then nodeResolve cwd root (filePath.drop 1)
  else
    match importer with
    | some imp => nodeResolve cwd (dirnamePosix (stripQuery imp)) filePath
    | none => nodeResolve cwd root filePath

/-- Claim C8: resolveInlinePath implements exactly the specified rule, for
every file path, importer and project root. -/
theorem claim8_resolve_rule (cwd filePath : List Char)
    (importer : Option (List Char)) (root : List Char) :
    resolveInlinePath cwd filePath importer root =
      resolveInlinePathSpec cwd filePath importer root := rfl

/-! ## Claim C9: attribute grammar example -/

/-- Claim C9: parseAttributes on the fragment with a bare attribute and a
double-quoted, a single-quoted and a bare value yields exactly the expected
map; a bare attribute alone maps to the empty string. -/
theorem claim9_parse_example :
    parseAttributes (str "a b=\"c\" d='e' f=g") =
      [(str "a", []), (str "b", str "c"), (str "d", str "e"), (str "f", str "g")] ∧
    parseAttributes (str "standalone") = [(str "standalone", [])] := by decide

/-! ## Claim C10: duplicate attribute names -/

def keysOf (l : List (List Char × List Char)) : List (List Char) := l.map Prod.fst

theorem lookupA_upsert_self (l : List (List Char × List Char)) (k v : List Char) :
    lookupA (upsert l k v) k = some v := by
  induction l with
  | nil => simp [upsert, lookupA]
  | cons hd tl ih =>
    by_cases h : hd.1 = k <;> simp [upsert, lookupA, h, ih]

theorem lookupA_upsert_ne (l : List (List Char × List Char)) {k k' v : List Char}
    (h : k' ≠ k) : lookupA (upsert l k v) k' = lookupA l k' := by
  induction l with
  | nil =>
    have hne : ¬ (k = k') := fun e => h e.symm
    simp [upsert, lookupA, hne]
  | cons hd tl ih =>
    by_cases h1 : hd.1 = k
    · have hne : ¬ (hd.1 = k') := fun e => h (h1.symm.trans e).symm
      simp [upsert, if_pos h1, lookupA, hne]
    · simp only [upsert, if_neg h1]
      by_cases h2 : hd.1 = k' <;> simp [lookupA, h2, ih]

theorem keysOf_upsert_mem (l : List (List Char × List Char)) {k : List Char} (v : List Char)
    (h : hasKey l k = true) : keysOf (upsert l k v) = keysOf l := by
  induction l with
  | nil => simp [hasKey, lookupA] at h
  | cons hd tl ih =>
    by_cases h1 : hd.1 = k
    · simp [upsert, if_pos h1, keysOf, h1]
    · simp only [hasKey, lookupA, if_neg h1] at h
      have := ih h
      simp only [upsert, if_neg h1, keysOf, List.map_cons] at this ⊢
      rw [this]

theorem keysOf_upsert_not_mem (l : List (List Char × List Char)) {k : List Char} (v : List Char)
    (h : hasKey l k = false) : keysOf (upsert l k v) = keysOf l ++ [k] := by
  induction l with
  | nil => simp [upsert, keysOf]
  | cons hd tl ih =>
    by_cases h1 : hd.1 = k
    · simp [hasKey, lookupA, if_pos h1] at h
    · simp only [hasKey, lookupA, if_neg h1] at h
      have := ih h
      simp only [upsert, if_neg h1, keysOf, List.map_cons] at this ⊢
      rw [this]
      rfl

theorem mem_keysOf_iff_hasKey (l : List (List Char × List Char)) (k : List Char) :
    k ∈ keysOf l ↔ hasKey l k = true := by
  induction l with
  | nil => simp [keysOf, hasKey, lookupA]
  | cons hd tl ih =>
    simp only [keysOf, List.map_cons, List.mem_cons, hasKey, lookupA]
    by_cases h1 : hd.1 = k
    · simp [h1]
    · have h2 : ¬ (k = hd.1) := fun e => h1 e.symm
      simp only [if_neg h1, h2, false_or]
      exact ih

theorem keysOf_upsert_nodup (l : List (List Char × List Char)) (k v : List Char)
    (h : (keysOf l).Nodup) : (keysOf (upsert l k v)).Nodup := by
  by_cases hk : hasKey l k = true
  · rwa [keysOf_upsert_mem l v hk]
  · rw [keysOf_upsert_not_mem l v (by simpa using hk)]
    refine List.Nodup.append h (by simp) ?_
    intro a ha hb
    simp only [List.mem_singleton] at hb
    subst hb
    exact hk ((mem_keysOf_iff_hasKey l a).mp ha)

theorem find?_reverse_eq_getLast?_filter {α : Type} (p : α → Bool) (l : List α) :
    l.reverse.find? p = (l.filter p).getLast? := by
  induction l with
  | nil => simp
  | cons hd tl ih =>
    simp only [List.reverse_cons, List.find?_append, ih, List.filter_cons]
    by_cases h : p hd
    · simp only [if_pos h]
      cases hft : tl.filter p with
      | nil => simp [List.find?, h]
      | cons x xs =>
        rw [List.getLast?_cons_cons]
        have : (x :: xs).getLast?.isSome := by simp [List.getLast?_isSome]
        obtain ⟨y, hy⟩ := Option.isSome_iff_exists.mp this
        rw [hy]
        rfl
    · simp [if_neg h, List.find?, h]

theorem lookupA_foldl_upsert (toks : List MatchRes) :
    ∀ acc name, lookupA
        (toks.foldl (fun a m => upsert a (tokenName m) (tokenValue m)) acc) name =
      (match toks.reverse.find? (fun m => decide (tokenName m = name)) with
       | some m => some (tokenValue m)
       | none => lookupA acc name) := by
  induction toks with
  | nil => intro acc name; simp
  | cons hd tl ih =>
    intro acc name
    simp only [List.foldl_cons, List.reverse_cons, List.find?_append]
    rw [ih]
    cases hfind : tl.reverse.find? (fun m => decide (tokenName m = name)) with
    | some m => rfl
    | none =>
      rw [Option.none_or]
      by_cases h : tokenName hd = name
      · subst h
        simp [List.find?, lookupA_upsert_self]
      · simp [List.find?, h, lookupA_upsert_ne _ (fun e => h e.symm)]

theorem parseAttributes_keys_nodup (s : List Char) :
    (keysOf (parseAttributes s)).Nodup := by
  suffices h : ∀ (toks : List MatchRes) (acc : List (List Char × List Char)),
      (keysOf acc).Nodup →
      (keysOf (toks.foldl (fun a m => upsert a (tokenName m) (tokenValue m)) acc)).Nodup by
    exact h _ [] (by simp [keysOf])
  intro toks
  induction toks with
  | nil => intro acc h; exact h
  | cons hd tl ih =>
    intro acc h
    exact ih _ (keysOf_upsert_nodup _ _ _ h)

theorem nodup_filter_length_one {l : List (List Char)} {name : List Char}
    (hnd : l.Nodup) (hmem : name ∈ l) :
    (l.filter (fun k => decide (k = name))).length = 1 := by
  induction l with
  | nil => simp at hmem
  | cons hd tl ih =>
    rcases List.mem_cons.mp hmem with heq | hmem2
    · subst heq
      have hnin : name ∉ tl := (List.nodup_cons.mp hnd).1
      have hft : tl.filter (fun k => decide (k = name)) = [] := by
        rw [List.filter_eq_nil_iff]
        intro a ha
        simp only [decide_eq_true_eq]
        intro he
        exact hnin (he ▸ ha)
      simp [List.filter_cons, hft]
    · have hne2 : ¬ (hd = name) := by
        intro he
        exact (List.nodup_cons.mp hnd).1 (he ▸ hmem2)
      simp only [List.filter_cons, decide_eq_true_eq, if_neg hne2]
      exact ih (List.nodup_cons.mp hnd).2 hmem2

/-- Claim C10: when an attribute name occurs more than once in a fragment,
parseAttributes binds it to the value of its last occurrence and the
resulting map holds exactly one entry for that name. -/
theorem claim10_duplicate_name_last_wins (frag name : List Char)
    (h : 2 ≤ ((attrTokens frag).filter (fun m => decide (tokenName m = name))).length) :
    lookupA (parseAttributes frag) name =
      (((attrTokens frag).filter (fun m => decide (tokenName m = name))).getLast?).map
        tokenValue ∧
    ((keysOf (parseAttributes frag)).filter (fun k => decide (k = name))).length = 1 := by
  have hlook : lookupA (parseAttributes frag) name =
      (((attrTokens frag).filter (fun m => decide (tokenName m = name))).getLast?).map
        tokenValue := by
    rw [parseAttributes, lookupA_foldl_upsert, find?_reverse_eq_getLast?_filter]
    cases hl : ((attrTokens frag).filter (fun m => decide (tokenName m = name))).getLast? with
    | none => simp [lookupA]
    | some m =>
      have hmem : m ∈ (attrTokens frag).filter (fun m => decide (tokenName m = name)) := by
        obtain ⟨hne, heq⟩ := List.mem_getLast?_eq_getLast (Option.mem_def.mpr hl)
        rw [heq]
        exact List.getLast_mem hne
      have := List.of_mem_filter hmem
      simp at this
      simp [this]
  refine ⟨hlook, ?_⟩
  have hne : (attrTokens frag).filter (fun m => decide (tokenName m = name)) ≠ [] := by
    intro he
    rw [he] at h
    simp at h
  have hsome : (((attrTokens frag).filter
      (fun m => decide (tokenName m = name))).getLast?).isSome := by
    rwa [List.getLast?_isSome]
  obtain ⟨m, hm⟩ := Option.isSome_iff_exists.mp hsome
  have hkey : hasKey (parseAttributes frag) name = true := by
    rw [hasKey, hlook, hm]
    rfl
  exact nodup_filter_length_one (parseAttributes_keys_nodup frag)
    ((mem_keysOf_iff_hasKey _ _).mpr hkey)

/-- Claim C10 witness: in the fragment with a repeated name the parse binds
the name to the last value and keeps a single entry. -/
theorem claim10_witness :
    lookupA (parseAttributes (str "a=1 a=2")) (str "a") =
      (((attrTokens (str "a=1 a=2")).filter
        (fun m => decide (tokenName m = str "a"))).getLast?).map tokenValue ∧
    ((keysOf (parseAttributes (str "a=1 a=2"))).filter
      (fun k => decide (k = str "a"))).length = 1 :=
  claim10_duplicate_name_last_wins (str "a=1 a=2") (str "a") (by decide)

/-! ## Claim C6: no-match identity -/

/-- Claim C6: when neither the script pass nor the link pass of
transformHtml finds a match, the returned document is the input itself and
no warnings are emitted. -/
theorem claim6_no_match_identity (html : List Char)
    (resolve : List Char → Option (List Char)) (attrOpt : Option (List Char))
    (h1 : scanAll scriptReHtml html = []) (h2 : scanAll linkReHtml html = []) :
    transformHtml html resolve attrOpt = (html, []) := by
  simp only [transformHtml, processPass, h1, List.reverse_nil, List.foldl_nil, h2,
    List.append_nil]

/-- Claim C6 witness: a concrete document with no matching tag is returned
unchanged. -/
theorem claim6_witness :
    scanAll scriptReHtml (str "<p>no tags</p>") = [] ∧
    scanAll linkReHtml (str "<p>no tags</p>") = [] ∧
    transformHtml (str "<p>no tags</p>") (fun _ => none) none =
      (str "<p>no tags</p>", []) :=
  ⟨by decide, by decide,
    claim6_no_match_identity _ _ _ (by decide) (by decide)⟩

/-! ## Claim C4: closing-script escape -/

def closeTails : List (List Char) :=
  [str "/script>", str "script>", str "cript>", str "ript>", str "ipt>", str "pt>", str "t>", str ">"]

theorem contains_repl_append {X : List Char} (h : containsCI closeScriptPat X = false) :
    containsCI closeScriptPat (escCloseRepl ++ X) = false := by
  simp only [containsCI, closeScriptPat, str] at h
  simp +decide [escCloseRepl, closeScriptPat, str, containsCI, containsW, startsW, ciEq, h]

theorem tails_repl_append (X : List Char) :
    ∀ t ∈ closeTails, startsW ciEq t (escCloseRepl ++ X) = false := by
  intro t ht
  fin_cases ht <;> simp +decide [escCloseRepl, str, startsW, ciEq]

theorem tail_step {t0 : Char} {t' X rest : List Char} {c : Char}
    (hstart : startsW ciEq (t0 :: t') (c :: X) = true)
    (hpres : startsW ciEq t' X = true → startsW ciEq t' rest = true) :
    startsW ciEq (t0 :: t') (c :: rest) = true := by
  simp only [startsW, Bool.and_eq_true] at hstart ⊢
  exact ⟨hstart.1, hpres hstart.2⟩

theorem escape_go_spec : ∀ fuel (s : List Char), s.length ≤ fuel →
    containsCI closeScriptPat (replaceGo ciEq closeScriptPat escCloseRepl fuel s) = false ∧
    (∀ t ∈ closeTails,
      startsW ciEq t (replaceGo ciEq closeScriptPat escCloseRepl fuel s) = true →
      startsW ciEq t s = true) := by
  intro fuel
  induction fuel with
  | zero =>
    intro s hs
    have hnil : s = [] := List.length_eq_zero.mp (Nat.le_zero.mp hs)
    subst hnil
    exact ⟨by decide, by decide⟩
  | succ fuel ih =>
    intro s hs
    cases s with
    | nil =>
      rw [show replaceGo ciEq closeScriptPat escCloseRepl (fuel + 1) [] = [] by
        simp [replaceGo]]
      exact ⟨by decide, by decide⟩
    | cons c rest =>
      by_cases hm : startsW ciEq closeScriptPat (c :: rest) = true
      · have hout : replaceGo ciEq closeScriptPat escCloseRepl (fuel + 1) (c :: rest) =
            escCloseRepl ++ replaceGo ciEq closeScriptPat escCloseRepl fuel
              (List.drop (closeScriptPat.length - 1) rest) := by
          simp [replaceGo, hm]
        have hlen : (List.drop (closeScriptPat.length - 1) rest).length ≤ fuel := by
          have h9 : closeScriptPat.length = 9 := by decide
          simp only [List.length_drop, h9]
          simp only [List.length_cons] at hs
          omega
        obtain ⟨ihc, iht⟩ := ih _ hlen
        rw [hout]
        refine ⟨contains_repl_append ihc, ?_⟩
        intro t ht hstart
        rw [tails_repl_append _ t ht] at hstart
        cases hstart
      · have hm' : startsW ciEq closeScriptPat (c :: rest) = false := by
          cases hq : startsW ciEq closeScriptPat (c :: rest)
          · rfl
          · exact absurd hq hm
        have hout : replaceGo ciEq closeScriptPat escCloseRepl (fuel + 1) (c :: rest) =
            c :: replaceGo ciEq closeScriptPat escCloseRepl fuel rest := by
          simp [replaceGo, hm']
        have hlen : rest.length ≤ fuel := by
          simp only [List.length_cons] at hs
          omega
        obtain ⟨ihc, iht⟩ := ih rest hlen
        rw [hout]
        set X := replaceGo ciEq closeScriptPat escCloseRepl fuel rest with hX
        constructor
        · have hsplit : containsCI closeScriptPat (c :: X) =
              (startsW ciEq closeScriptPat (c :: X) || containsCI closeScriptPat X) := rfl
          rw [hsplit, ihc, Bool.or_false]
          have he : startsW ciEq closeScriptPat (c :: X) =
              (ciEq c '<' && startsW ciEq (str "/script>") X) := rfl
          rw [he]
          cases hc : ciEq c '<'
          · rfl
          · simp only [Bool.true_and]
            cases hXs : startsW ciEq (str "/script>") X
            · rfl
            · have h2 := iht (str "/script>") (by decide) hXs
              have he2 : startsW ciEq closeScriptPat (c :: rest) =
                  (ciEq c '<' && startsW ciEq (str "/script>") rest) := rfl
              rw [he2, hc, h2] at hm'
              cases hm'
        · intro t ht hstart
          fin_cases ht
          · exact tail_step hstart (fun h => iht (str "script>") (by decide) h)
          · exact tail_step hstart (fun h => iht (str "cript>") (by decide) h)
          · exact tail_step hstart (fun h => iht (str "ript>") (by decide) h)
          · exact tail_step hstart (fun h => iht (str "ipt>") (by decide) h)
          · exact tail_step hstart (fun h => iht (str "pt>") (by decide) h)
          · exact tail_step hstart (fun h => iht (str "t>") (by decide) h)
          · exact tail_step hstart (fun h => iht (str ">") (by decide) h)
          · exact tail_step hstart (fun _ => rfl)

/-- Claim C4: the escaping that transformHtml applies to resolved script
content before splicing it into the document (escapeCloseScript, used by
scriptHandlerHtml) leaves no case-insensitive occurrence of the literal
closing-script sequence in the inserted content, so the inserted content
can never terminate the enclosing script element early. -/
theorem claim4_close_script_escaped (content : List Char) :
    containsCI closeScriptPat (escapeCloseScript content) = false :=
  (escape_go_spec content.length content le_rfl).1

theorem mmatch_post {α : Type} (P : α → Prop) :
    ∀ (fuel : Nat) (re : RE) (s : List Char) (prev : Option Char) (caps : Caps)
      (k : List Char → Option Char → Caps → Option α),
      (∀ s1 p1 c1 a, k s1 p1 c1 = some a → P a) →
      ∀ a, mmatch fuel re s prev caps k = some a → P a := by
  intro fuel
  induction fuel with
  | zero => intro re s prev caps k hk a h; simp [mmatch] at h
  | succ fuel ih =>
    intro re s prev caps k hk a h
    cases re with
    | eps => exact hk _ _ _ _ h
    | cls p =>
      cases s with
      | nil => simp [mmatch] at h
      | cons c rest =>
        simp only [mmatch] at h
        by_cases hp : p c
        · rw [if_pos hp] at h
          exact hk _ _ _ _ h
        · rw [if_neg hp] at h
          cases h
    | seq a1 b1 =>
      simp only [mmatch] at h
      exact ih a1 _ _ _ _ (fun s1 p1 c1 x hx => ih b1 _ _ _ _ hk x hx) a h
    | alt a1 b1 =>
      simp only [mmatch] at h
      cases hm : mmatch fuel a1 s prev caps k with
      | some r => rw [hm] at h; cases h; exact ih a1 _ _ _ _ hk _ hm
      | none => rw [hm] at h; exact ih b1 _ _ _ _ hk _ h
    | opt r =>
      simp only [mmatch] at h
      cases hm : mmatch fuel r s prev caps k with
      | some r2 => rw [hm] at h; cases h; exact ih r _ _ _ _ hk _ hm
      | none => rw [hm] at h; exact hk _ _ _ _ h
    | star lz r =>
      simp only [mmatch] at h
      by_cases hlz : lz
      · rw [if_pos hlz] at h
        cases hm : k s prev caps with
        | some r2 => rw [hm] at h; cases h; exact hk _ _ _ _ hm
        | none =>
          rw [hm] at h
          refine ih r _ _ _ _ (fun s1 p1 c1 x hx => ?_) a h
          by_cases hlen : s1.length < s.length
          · rw [if_pos hlen] at hx
            exact ih (RE.star lz r) _ _ _ _ hk x hx
          · rw [if_neg hlen] at hx; cases hx
      · rw [if_neg hlz] at h
        cases hm : mmatch fuel r s prev caps (fun s1 p1 c1 =>
            if s1.length < s.length then mmatch fuel (RE.star lz r) s1 p1 c1 k else none) with
        | some r2 =>
          rw [hm] at h; cases h
          refine ih r _ _ _ _ (fun s1 p1 c1 x hx => ?_) _ hm
          by_cases hlen : s1.length < s.length
          · rw [if_pos hlen] at hx
            exact ih (RE.star lz r) _ _ _ _ hk x hx
          · rw [if_neg hlen] at hx; cases hx
        | none => rw [hm] at h; exact hk _ _ _ _ h
    | grp i r =>
      simp only [mmatch] at h
      exact ih r _ _ _ _ (fun s1 p1 c1 x hx => hk _ _ _ _ hx) a h
    | wb =>
      simp only [mmatch] at h
      by_cases hw : atWb prev s
      · rw [if_pos hw] at h
        exact hk _ _ _ _ h
      · rw [if_neg hw] at h
        cases h

theorem findAux_spec (re : RE) :
    ∀ (s : List Char) (prev : Option Char) (pos : Nat) (m : MatchRes),
      findAux re prev s pos = some m →
      pos ≤ m.idx ∧ m.idx + m.len ≤ pos + s.length := by
  intro s
  induction s with
  | nil =>
    intro prev pos m h
    rw [findAux] at h
    cases hm : mmatch (mfuel []) re [] prev initCaps
        (fun s1 _ c1 => some ((List.nil : List Char).length - s1.length, c1)) with
    | some lc =>
      rw [hm] at h
      have hlen : lc.1 ≤ (List.nil : List Char).length := by
        refine mmatch_post (fun a => a.1 ≤ (List.nil : List Char).length) _ _ _ _ _ _
          (fun s1 p1 c1 a ha => ?_) lc hm
        cases ha
        exact Nat.sub_le _ _
      cases h
      simp at hlen ⊢
      omega
    | none => rw [hm] at h; cases h
  | cons c rest ih =>
    intro prev pos m h
    rw [findAux] at h
    cases hm : mmatch (mfuel (c :: rest)) re (c :: rest) prev initCaps
        (fun s1 _ c1 => some ((c :: rest).length - s1.length, c1)) with
    | some lc =>
      rw [hm] at h
      have hlen : lc.1 ≤ (c :: rest).length := by
        refine mmatch_post (fun a => a.1 ≤ (c :: rest).length) _ _ _ _ _ _
          (fun s1 p1 c1 a ha => ?_) lc hm
        cases ha
        exact Nat.sub_le _ _
      cases h
      constructor
      · exact le_rfl
      · simpa using hlen
    | none =>
      rw [hm] at h
      have := ih (some c) (pos + 1) m h
      simp only [List.length_cons]
      omega



theorem findAt_spec {re : RE} {full : List Char} {pos : Nat} {m : MatchRes}
    (h : findAt re full pos = some m) :
    pos ≤ m.idx ∧ m.idx + m.len ≤ full.length := by
  rw [findAt] at h
  by_cases hp : pos ≤ full.length
  · rw [if_pos hp] at h
    have := findAux_spec re (full.drop pos) (prevAt full pos) pos m h
    rw [List.length_drop] at this
    omega
  · rw [if_neg hp] at h
    cases h

def ScanChain (L : Nat) : Nat → List MatchRes → Prop
  | _, [] => True
  | p, m :: ms => p ≤ m.idx ∧ m.idx + m.len ≤ L ∧ ScanChain L (m.idx + m.len) ms

theorem ScanChain_mono {L p q : Nat} {ms : List MatchRes}
    (h : ScanChain L p ms) (hq : q ≤ p) : ScanChain L q ms := by
  cases ms with
  | nil => trivial
  | cons m ms => exact ⟨le_trans hq h.1, h.2.1, h.2.2⟩

theorem scanGo_chain (re : RE) (full : List Char) :
    ∀ (fuel pos : Nat), ScanChain full.length pos (scanGo re full fuel pos) := by
  intro fuel
  induction fuel with
  | zero => intro pos; simp [scanGo, ScanChain]
  | succ fuel ih =>
    intro pos
    rw [scanGo]
    cases hf : findAt re full pos with
    | none => simp [ScanChain]
    | some m =>
      obtain ⟨h1, h2⟩ := findAt_spec hf
      exact ⟨h1, h2, ScanChain_mono (ih (m.idx + max m.len 1)) (by omega)⟩

theorem scanAll_chain (re : RE) (full : List Char) :
    ScanChain full.length 0 (scanAll re full) := scanGo_chain re full _ 0

/-- The shape of the result of one splice pass: the document decomposes into
the untouched segments between matches and, per match, either the handler's
replacement or the original matched region. -/
def assembleChoice (full : List Char) (choice : MatchRes → Option (List Char)) :
    Nat → List MatchRes → List Char
  | pos, [] => full.drop pos
  | pos, m :: ms =>
    extractRange full pos m.idx ++
      ((choice m).getD (extractRange full m.idx (m.idx + m.len))) ++
      assembleChoice full choice (m.idx + m.len) ms

/-- The warnings of one pass, in processing (reverse document) order. -/
def passWarnings (handler : MatchRes → Option (List Char) × List (List Char))
    (ms : List MatchRes) : List (List Char) :=
  (ms.reverse.map (fun m => (handler m).2)).flatten

theorem spliceFold_warnings (handler : MatchRes → Option (List Char) × List (List Char)) :
    ∀ (ms : List MatchRes) (s : List Char) (ws : List (List Char)),
      (ms.foldl (spliceStep handler) (s, ws)).2 =
        ws ++ (ms.map (fun m => (handler m).2)).flatten := by
  intro ms
  induction ms with
  | nil => intro s ws; simp
  | cons m ms ih =>
    intro s ws
    rw [List.foldl_cons]
    have hstep : (spliceStep handler (s, ws) m).2 = ws ++ (handler m).2 := by
      rw [spliceStep]
      cases hh : handler m with
      | mk o w => cases o <;> rfl
    cases hsp : spliceStep handler (s, ws) m with
    | mk s2 ws2 =>
      have : ws2 = ws ++ (handler m).2 := by rw [← hstep, hsp]
      subst this
      rw [ih]
      simp

theorem spliceFold_text (handler : MatchRes → Option (List Char) × List (List Char))
    (full : List Char) :
    ∀ (ms : List MatchRes) (p : Nat) (ws : List (List Char)),
      ScanChain full.length p ms →
      (ms.reverse.foldl (spliceStep handler) (full, ws)).1 =
        full.take p ++ assembleChoice full (fun m => (handler m).1) p ms := by
  intro ms
  induction ms with
  | nil =>
    intro p ws h
    simp [assembleChoice]
  | cons m ms ih =>
    intro p ws h
    obtain ⟨hp, hb, hc⟩ := h
    rw [List.reverse_cons, List.foldl_append, List.foldl_cons, List.foldl_nil]
    rcases hsw : ms.reverse.foldl (spliceStep handler) (full, ws) with ⟨s1, ws1⟩
    have hinner : s1 = full.take (m.idx + m.len) ++
        assembleChoice full (fun m => (handler m).1) (m.idx + m.len) ms := by
      have := ih (m.idx + m.len) ws hc
      rw [hsw] at this
      exact this
    have htake : full.take (m.idx + m.len) = full.take m.idx ++
        List.take m.len (full.drop m.idx) := by
      have : m.idx + m.len = m.idx + m.len := rfl
      rw [List.take_add]
    have htakep : full.take m.idx = full.take p ++ extractRange full p m.idx := by
      rw [extractRange]
      have he : m.idx = p + (m.idx - p) := by omega
      rw [he, List.take_add]
      congr 2
      omega
    rw [spliceStep]
    cases hh : handler m with
    | mk o w =>
      cases o with
      | none =>
        simp only
        rw [hinner, assembleChoice]
        rw [htake, htakep]
        simp [hh, extractRange, Nat.add_sub_cancel_left, List.append_assoc]
      | some r =>
        simp only [spliceText]
        rw [hinner]
        have hlb : (full.take (m.idx + m.len)).length = m.idx + m.len := by
          rw [List.length_take]
          omega
        have h1 : (full.take (m.idx + m.len) ++
            assembleChoice full (fun m => (handler m).1) (m.idx + m.len) ms).take m.idx =
            full.take m.idx := by
          rw [List.take_append_of_le_length (by omega), List.take_take]
          congr 1
          omega
        have h2 : ∀ A : List Char,
            (full.take (m.idx + m.len) ++ A).drop (m.idx + m.len) = A := by
          intro A
          have hdl := List.drop_left (full.take (m.idx + m.len)) A
          rwa [hlb] at hdl
        rw [h1, h2, assembleChoice, htakep]
        simp [hh, List.append_assoc]



theorem processPass_eq (re : RE)
    (handler : MatchRes → Option (List Char) × List (List Char)) (s : List Char) :
    processPass re handler s =
      (assembleChoice s (fun m => (handler m).1) 0 (scanAll re s),
       passWarnings handler (scanAll re s)) := by
  rw [processPass]
  have ht := spliceFold_text handler s (scanAll re s) 0 [] (scanAll_chain re s)
  have hw := spliceFold_warnings handler (scanAll re s).reverse s []
  rcases hfold : ((scanAll re s).reverse).foldl (spliceStep handler) (s, []) with ⟨a, b⟩
  rw [hfold] at ht hw
  simp only [List.take_zero, List.nil_append] at ht hw
  rw [Prod.mk.injEq]
  exact ⟨ht, hw⟩



/-- Claim C5: transformHtml decomposes per pass into the untouched segments
between matches plus, per match, either the spliced replacement or the
original matched region verbatim; and a matched tag whose reference the
resolver cannot supply produces no replacement (the tag region stays
byte-for-byte the original text) together with exactly one warning, while
all other matches are still processed. -/
theorem claim5_unresolved_tag (html attr : List Char)
    (resolve : List Char → Option (List Char)) :
    (transformHtml html resolve (some attr) =
      ((assembleChoice
          (assembleChoice html (fun m => (scriptHandlerHtml attr resolve m).1) 0
            (scanAll scriptReHtml html))
          (fun m => (linkHandlerHtml attr resolve m).1) 0
          (scanAll linkReHtml
            (assembleChoice html (fun m => (scriptHandlerHtml attr resolve m).1) 0
              (scanAll scriptReHtml html)))),
        passWarnings (scriptHandlerHtml attr resolve) (scanAll scriptReHtml html) ++
          passWarnings (linkHandlerHtml attr resolve)
            (scanAll linkReHtml
              (assembleChoice html (fun m => (scriptHandlerHtml attr resolve m).1) 0
                (scanAll scriptReHtml html))))) ∧
    (∀ m : MatchRes,
      hasKey (parseAttributes ((capGet m 1).getD [])) attr = true →
      hasKey (parseAttributes ((capGet m 1).getD [])) (str "src") = true →
      resolve ((lookupA (parseAttributes ((capGet m 1).getD [])) (str "src")).getD []) =
        none →
      scriptHandlerHtml attr resolve m =
        (none,
          [warnMsg ((lookupA (parseAttributes ((capGet m 1).getD [])) (str "src")).getD [])])) ∧
    (∀ m : MatchRes,
      hasKey (parseAttributes ((capGet m 1).getD [])) attr = true →
      lookupA (parseAttributes ((capGet m 1).getD [])) (str "rel") =
        some (str "stylesheet") →
      hasKey (parseAttributes ((capGet m 1).getD [])) (str "href") = true →
      resolve ((lookupA (parseAttributes ((capGet m 1).getD [])) (str "href")).getD []) =
        none →
      linkHandlerHtml attr resolve m =
        (none,
          [warnMsg ((lookupA (parseAttributes ((capGet m 1).getD [])) (str "href")).getD [])])) := by
  refine ⟨?_, ?_, ?_⟩
  · simp only [transformHtml, Option.getD_some, processPass_eq]
  · intro m h1 h2 h3
    simp only [scriptHandlerHtml, h1, h2, Bool.and_self, if_pos, h3]
  · intro m h1 h2 h3 h4
    simp only [linkHandlerHtml, h1, h2, h3, decide_eq_true_eq, if_pos, h4]
    simp [h2, h4]

def wm1 : MatchRes :=
  ⟨0, 0, [], [none, some (str " inline src=\"x.js\""), none, none, none, none]⟩

def wm2 : MatchRes :=
  ⟨0, 0, [], [none, some (str " inline rel=\"stylesheet\" href=\"s.css\""), none, none, none, none]⟩

theorem claim5_witness :
    scriptHandlerHtml (str "inline") (fun _ => none) wm1 =
      (none,
        [warnMsg ((lookupA (parseAttributes ((capGet wm1 1).getD []))
          (str "src")).getD [])]) ∧
    linkHandlerHtml (str "inline") (fun _ => none) wm2 =
      (none,
        [warnMsg ((lookupA (parseAttributes ((capGet wm2 1).getD []))
          (str "href")).getD [])]) :=
  ⟨(claim5_unresolved_tag [] (str "inline") (fun _ => none)).2.1 wm1 (by decide)
      (by decide) rfl,
   (claim5_unresolved_tag [] (str "inline") (fun _ => none)).2.2 wm2 (by decide)
      (by decide) (by decide) rfl⟩



/-- Claim C7: a tag matched by a pass pattern that carries the trigger
attribute but lacks its required companion attribute (script without src;
link without stylesheet rel or without href) is left unchanged by both
transformHtml (no splice) and transformJsx (replacer returns the match
itself, counter and imports untouched), with no warning emitted. -/
theorem claim7_malformed_silent_skip :
    (∀ (attr : List Char) (resolve : List Char → Option (List Char)) (m : MatchRes),
      hasKey (parseAttributes ((capGet m 1).getD [])) attr = true →
      hasKey (parseAttributes ((capGet m 1).getD [])) (str "src") = false →
      scriptHandlerHtml attr resolve m = (none, [])) ∧
    (∀ (attr : List Char) (resolve : List Char → Option (List Char)) (m : MatchRes),
      hasKey (parseAttributes ((capGet m 1).getD [])) attr = true →
      (¬ lookupA (parseAttributes ((capGet m 1).getD [])) (str "rel") =
          some (str "stylesheet") ∨
        hasKey (parseAttributes ((capGet m 1).getD [])) (str "href") = false) →
      linkHandlerHtml attr resolve m = (none, [])) ∧
    (∀ (attr qraw : List Char) (m : MatchRes) (st : JsxState),
      hasKey (parseAttributes ((capGet m 1).getD [] ++ attr ++ (capGet m 2).getD []))
        attr = true →
      hasKey (parseAttributes ((capGet m 1).getD [] ++ attr ++ (capGet m 2).getD []))
        (str "src") = false →
      scriptCbJsx attr qraw m st = (m.whole, st)) ∧
    (∀ (attr qinl : List Char) (m : MatchRes) (st : JsxState),
      hasKey (parseAttributes ((capGet m 1).getD [] ++ attr ++ (capGet m 2).getD []))
        attr = true →
      (¬ lookupA (parseAttributes ((capGet m 1).getD [] ++ attr ++ (capGet m 2).getD []))
          (str "rel") = some (str "stylesheet") ∨
        hasKey (parseAttributes ((capGet m 1).getD [] ++ attr ++ (capGet m 2).getD []))
          (str "href") = false) →
      linkCbJsx attr qinl m st = (m.whole, st)) := by
  refine ⟨?_, ?_, ?_, ?_⟩
  · intro attr resolve m h1 h2
    simp [scriptHandlerHtml, h1, h2]
  · intro attr resolve m h1 h2
    rcases h2 with h2 | h2
    · simp [linkHandlerHtml, h1, h2]
    · simp [linkHandlerHtml, h1, h2]
  · intro attr qraw m st h1 h2
    simp only [List.append_assoc] at h1 h2
    simp [scriptCbJsx, h1, h2, List.append_assoc]
  · intro attr qinl m st h1 h2
    simp only [List.append_assoc] at h1 h2
    rcases h2 with h2 | h2
    · simp [linkCbJsx, h1, h2, List.append_assoc]
    · simp [linkCbJsx, h1, h2, List.append_assoc]

def wm3 : MatchRes :=
  ⟨0, 0, [], [none, some (str " inline type=\"module\""), none, none, none, none]⟩

def wm4 : MatchRes :=
  ⟨0, 0, [], [none, some (str " inline rel=\"preload\" href=\"s.css\""), none, none, none, none]⟩

def wm5 : MatchRes := ⟨0, 0, [], [none, some (str " "), some [], none, none, none]⟩

theorem claim7_witness :
    scriptHandlerHtml (str "inline") (fun _ => some []) wm3 = (none, []) ∧
    linkHandlerHtml (str "inline") (fun _ => some []) wm4 = (none, []) ∧
    scriptCbJsx (str "inline") (str "?q") wm5 (0, []) = (wm5.whole, (0, [])) ∧
    linkCbJsx (str "inline") (str "?q") wm5 (0, []) = (wm5.whole, (0, [])) :=
  ⟨claim7_malformed_silent_skip.1 (str "inline") (fun _ => some []) wm3 (by decide)
      (by decide),
   claim7_malformed_silent_skip.2.1 (str "inline") (fun _ => some []) wm4 (by decide)
      (Or.inl (by decide)),
   claim7_malformed_silent_skip.2.2.1 (str "inline") (str "?q") wm5 (0, []) (by decide)
      (by decide),
   claim7_malformed_silent_skip.2.2.2 (str "inline") (str "?q") wm5 (0, []) (by decide)
      (Or.inl (by decide))⟩

/-! ## Claim C3: binding numbering in transformJsx -/

/-- A component source in which a marked stylesheet link precedes a marked
script tag in document order. -/
def jsxDoc : List Char :=
  str "const a = <div><link inline rel=\"stylesheet\" href=\"./a.css\" /><script inline src=\"./x.js\"></script></div>"

set_option maxRecDepth 10000 in
/-- Claim C3 counterexample: in jsxDoc the matched stylesheet link starts at
index 15, before the matched script at index 62, yet the script import is
bound to __inline_0 and the link import to __inline_1 — the earlier
stylesheet link does not receive the smaller number, contradicting
first-encountered document-order numbering across tag kinds. -/
theorem claim3_counterexample :
    (scanAll (linkReJsx (str "inline")) jsxDoc).map MatchRes.idx = [15] ∧
    (scanAll (scriptReJsx (str "inline")) jsxDoc).map MatchRes.idx = [62] ∧
    jsxImports jsxDoc (str "inline") (str "?q") (str "?q") =
      [importLine (inlineVar 0) (str "./x.js?q"),
       importLine (inlineVar 1) (str "./a.css?q")] := by decide

/-- Each replacer either leaves the state alone or appends one import bound
to the current counter value and advances the counter. -/
def stepPreserves (cb : MatchRes → JsxState → List Char × JsxState) : Prop :=
  ∀ m st, (cb m st).2 = st ∨
    ∃ p, (cb m st).2 = (st.1 + 1, st.2 ++ [importLine (inlineVar st.1) p])

theorem scriptCbJsx_step (attr qraw : List Char) :
    stepPreserves (scriptCbJsx attr qraw) := by
  intro m st
  rw [scriptCbJsx]
  cases h : (hasKey (parseAttributes ((capGet m 1).getD [] ++ attr ++ (capGet m 2).getD []))
      attr && hasKey (parseAttributes ((capGet m 1).getD [] ++ attr ++ (capGet m 2).getD []))
      (str "src"))
  · left
    simp [h]
  · right
    refine ⟨(lookupA (parseAttributes ((capGet m 1).getD [] ++ attr ++ (capGet m 2).getD []))
      (str "src")).getD [] ++ qraw, ?_⟩
    simp [h]

theorem linkCbJsx_step (attr qinl : List Char) :
    stepPreserves (linkCbJsx attr qinl) := by
  intro m st
  rw [linkCbJsx]
  cases h : (hasKey (parseAttributes ((capGet m 1).getD [] ++ attr ++ (capGet m 2).getD []))
      attr && decide (lookupA (parseAttributes ((capGet m 1).getD [] ++ attr ++
        (capGet m 2).getD [])) (str "rel") = some (str "stylesheet")) &&
      hasKey (parseAttributes ((capGet m 1).getD [] ++ attr ++ (capGet m 2).getD []))
      (str "href"))
  · left
    simp [h]
  · right
    refine ⟨(lookupA (parseAttributes ((capGet m 1).getD [] ++ attr ++ (capGet m 2).getD []))
      (str "href")).getD [] ++ qinl, ?_⟩
    simp [h]

/-- Counter/import invariant: the imports are exactly numbered 0..counter-1. -/
def importsNumbered (st : JsxState) : Prop :=
  st.2.length = st.1 ∧
  ∀ i : Nat, i < st.1 → ∃ p, st.2[i]? = some (importLine (inlineVar i) p)

theorem assembleCB_numbered {cb : MatchRes → JsxState → List Char × JsxState}
    (hcb : stepPreserves cb) (full : List Char) :
    ∀ (ms : List MatchRes) (pos : Nat) (st : JsxState), importsNumbered st →
      importsNumbered (assembleCB full cb pos ms st).2 := by
  intro ms
  induction ms with
  | nil => intro pos st h; exact h
  | cons m ms ih =>
    intro pos st h
    simp only [assembleCB]
    refine ih _ _ ?_
    rcases hcb m st with h1 | ⟨p, h1⟩
    · rw [h1]; exact h
    · rw [h1]
      constructor
      · simp [h.1]
      · intro i hi
        simp only at hi
        by_cases hlt : i < st.1
        · obtain ⟨p2, hp2⟩ := h.2 i hlt
          refine ⟨p2, ?_⟩
          rw [List.getElem?_append_left (by rw [h.1]; exact hlt)]
          exact hp2
        · have hieq : i = st.1 := by omega
          subst hieq
          refine ⟨p, ?_⟩
          rw [List.getElem?_append_right (by rw [h.1])]
          simp [h.1]

theorem transformJsxCore_state (code attr qraw qinl : List Char) :
    importsNumbered ((transformJsxCore code attr qraw qinl).2.2,
      (transformJsxCore code attr qraw qinl).2.1) := by
  rw [transformJsxCore]
  by_cases hpre : (findAt (testReJsx attr) code 0).isSome
  · rw [if_pos hpre]
    have h0 : importsNumbered ((0 : Nat), ([] : List (List Char))) := by
      refine ⟨rfl, ?_⟩
      intro i hi
      omega
    have h1 := assembleCB_numbered (scriptCbJsx_step attr qraw) code
      (scanAll (scriptReJsx attr) code) 0 (0, []) h0
    have h2 := assembleCB_numbered (linkCbJsx_step attr qinl)
      (replaceCB (scriptReJsx attr) code (scriptCbJsx attr qraw) (0, [])).1
      (scanAll (linkReJsx attr)
        (replaceCB (scriptReJsx attr) code (scriptCbJsx attr qraw) (0, [])).1) 0
      (replaceCB (scriptReJsx attr) code (scriptCbJsx attr qraw) (0, [])).2 h1
    simp only [replaceCB] at h2 ⊢
    split
    · exact h2
    · exact h2
  · rw [if_neg hpre]
    refine ⟨rfl, ?_⟩
    intro i hi
    simp at hi

/-- Claim C3 (amended): the bindings generated by transformJsx are exactly
__inline_0 through __inline_(N-1), consecutively numbered from zero in
generation order: the script pass numbers all its matches first, in document
order, and the link pass then continues the same counter over its matches in
document order — pass order, not document order across tag kinds. -/
theorem claim3_amended (code attr qraw qinl : List Char) :
    (jsxImports code attr qraw qinl).length =
      (transformJsxCore code attr qraw qinl).2.2 ∧
    ∀ i : Nat, i < (jsxImports code attr qraw qinl).length →
      ∃ p : List Char,
        (jsxImports code attr qraw qinl)[i]? = some (importLine (inlineVar i) p) := by
  have h := transformJsxCore_state code attr qraw qinl
  refine ⟨h.1, ?_⟩
  intro i hi
  exact h.2 i (by rw [← h.1]; exact hi)

set_option maxRecDepth 10000 in
/-- Claim C3 (amended) witness: jsxDoc has its import at position zero bound
to __inline_0. -/
theorem claim3_amended_witness :
    ∃ p : List Char,
      (jsxImports jsxDoc (str "inline") (str "?q") (str "?q"))[0]? =
        some (importLine (inlineVar 0) p) :=
  (claim3_amended jsxDoc (str "inline") (str "?q") (str "?q")).2 0 (by decide)

/-! ## Claim C1: marker finalization across artifacts -/
/-- Segments of the text between successive leftmost non-overlapping
occurrences of the literal pattern (same scan as replaceGo). -/
def splitGo (eqf : Char → Char → Bool) (pat : List Char) :
    Nat → List Char → List (List Char)
  | _, [] => [[]]
  | 0, s => [s]
  | fuel + 1, c :: rest =>
    if startsW eqf pat (c :: rest) then
      [] :: splitGo eqf pat fuel (List.drop (pat.length - 1) rest)
    else
      match splitGo eqf pat fuel rest with
      | [] => [[c]]
      | seg :: segs => (c :: seg) :: segs

def splitOnL (eqf : Char → Char → Bool) (pat s : List Char) : List (List Char) :=
  splitGo eqf pat s.length s

theorem splitGo_ne_nil (eqf : Char → Char → Bool) (pat : List Char) :
    ∀ (fuel : Nat) (s : List Char), splitGo eqf pat fuel s ≠ [] := by
  intro fuel
  induction fuel with
  | zero =>
    intro s
    cases s <;> simp [splitGo]
  | succ fuel ih =>
    intro s
    cases s with
    | nil => simp [splitGo]
    | cons c rest =>
      rw [splitGo]
      by_cases h : startsW eqf pat (c :: rest) = true
      · simp [h]
      · have h' : startsW eqf pat (c :: rest) = false := by
          cases hq : startsW eqf pat (c :: rest)
          · rfl
          · exact absurd hq h
        rw [if_neg (by simp [h'])]
        cases hsg : splitGo eqf pat fuel rest <;> simp

theorem replaceGo_eq_joinWith (eqf : Char → Char → Bool) (pat repl : List Char) :
    ∀ (fuel : Nat) (s : List Char),
      replaceGo eqf pat repl fuel s = joinWith repl (splitGo eqf pat fuel s) := by
  intro fuel
  induction fuel with
  | zero =>
    intro s
    cases s <;> simp [replaceGo, splitGo, joinWith]
  | succ fuel ih =>
    intro s
    cases s with
    | nil => simp [replaceGo, splitGo, joinWith]
    | cons c rest =>
      rw [replaceGo, splitGo]
      by_cases h : startsW eqf pat (c :: rest) = true
      · rw [if_pos h, if_pos h, ih]
        cases hsg : splitGo eqf pat fuel (List.drop (pat.length - 1) rest) with
        | nil => exact absurd hsg (splitGo_ne_nil eqf pat fuel _)
        | cons a as =>
          cases as <;> simp [joinWith]
      · have h' : startsW eqf pat (c :: rest) = false := by
          cases hq : startsW eqf pat (c :: rest)
          · rfl
          · exact absurd hq h
        rw [if_neg (by simp [h']), if_neg (by simp [h']), ih]
        cases hsg : splitGo eqf pat fuel rest with
        | nil => exact absurd hsg (splitGo_ne_nil eqf pat fuel rest)
        | cons a as =>
          cases as <;> simp [joinWith]

theorem startsW_eqCh_iff (pat : List Char) :
    ∀ s : List Char, startsW eqCh pat s = true ↔ ∃ t, s = pat ++ t := by
  induction pat with
  | nil =>
    intro s
    simp [startsW]
  | cons p ps ih =>
    intro s
    cases s with
    | nil => simp [startsW]
    | cons c cs =>
      simp only [startsW, Bool.and_eq_true, List.cons_append, eqCh, decide_eq_true_eq, ih]
      constructor
      · rintro ⟨rfl, t, rfl⟩
        exact ⟨t, rfl⟩
      · rintro ⟨t, he⟩
        cases he
        exact ⟨rfl, t, rfl⟩

theorem containsW_eqCh_iff (pat : List Char) :
    ∀ s : List Char, containsLit pat s = true ↔ ∃ a b, s = a ++ pat ++ b := by
  intro s
  induction s with
  | nil =>
    simp only [containsLit, containsW, startsW_eqCh_iff]
    constructor
    · rintro ⟨t, ht⟩
      exact ⟨[], t, by simpa using ht⟩
    · rintro ⟨a, b, hab⟩
      refine ⟨b, ?_⟩
      have ha : a = [] := by
        cases a with
        | nil => rfl
        | cons x xs => simp at hab
      subst ha
      simpa using hab
  | cons c cs ih =>
    simp only [containsLit, containsW, Bool.or_eq_true, startsW_eqCh_iff] at ih ⊢
    constructor
    · rintro (⟨t, ht⟩ | h)
      · exact ⟨[], t, by simpa using ht⟩
      · obtain ⟨a, b, hab⟩ := ih.mp h
        exact ⟨c :: a, b, by simp [hab]⟩
    · rintro ⟨a, b, hab⟩
      cases a with
      | nil =>
        left
        exact ⟨b, by simpa using hab⟩
      | cons x xs =>
        right
        simp only [List.cons_append, List.cons.injEq] at hab
        exact ih.mpr ⟨xs, b, hab.2⟩



theorem replaceGo_id_of_not_contains (pat repl : List Char) :
    ∀ (fuel : Nat) (s : List Char), containsLit pat s = false →
      replaceGo eqCh pat repl fuel s = s := by
  intro fuel
  induction fuel with
  | zero =>
    intro s h
    cases s <;> rfl
  | succ fuel ih =>
    intro s h
    cases s with
    | nil => rfl
    | cons c rest =>
      simp only [containsLit, containsW, Bool.or_eq_false_iff] at h
      rw [replaceGo, if_neg (by simp [h.1]), ih rest h.2]

theorem replaceGoSub_id_of_not_contains (pat : List Char) (mkRepl : Nat → List Char) :
    ∀ (fuel pos : Nat) (s : List Char), containsLit pat s = false →
      replaceGoSub pat mkRepl fuel pos s = s := by
  intro fuel
  induction fuel with
  | zero =>
    intro pos s h
    cases s <;> rfl
  | succ fuel ih =>
    intro pos s h
    cases s with
    | nil => rfl
    | cons c rest =>
      simp only [containsLit, containsW, Bool.or_eq_false_iff] at h
      rw [replaceGoSub, if_neg (by simp [h.1]), ih _ rest h.2]

/-- Indices of the leftmost non-overlapping occurrences of the pattern
(same scan as replaceGoSub). -/
def occPositions (pat : List Char) : Nat → Nat → List Char → List Nat
  | _, _, [] => []
  | 0, _, _ => []
  | fuel + 1, pos, c :: rest =>
    if startsW eqCh pat (c :: rest) then
      pos :: occPositions pat fuel (pos + pat.length) (List.drop (pat.length - 1) rest)
    else occPositions pat fuel (pos + 1) rest

/-- Interleave segments with the replacement text computed at each
occurrence position. -/
def joinSubs (mkRepl : Nat → List Char) : List (List Char) → List Nat → List Char
  | [], _ => []
  | seg :: _, [] => seg
  | seg :: segs, p :: ps => seg ++ mkRepl p ++ joinSubs mkRepl segs ps

theorem replaceGoSub_eq_joinSubs (pat : List Char) (mkRepl : Nat → List Char) :
    ∀ (fuel pos : Nat) (s : List Char),
      replaceGoSub pat mkRepl fuel pos s =
        joinSubs mkRepl (splitGo eqCh pat fuel s) (occPositions pat fuel pos s) := by
  intro fuel
  induction fuel with
  | zero =>
    intro pos s
    cases s <;> simp [replaceGoSub, splitGo, occPositions, joinSubs]
  | succ fuel ih =>
    intro pos s
    cases s with
    | nil => simp [replaceGoSub, splitGo, occPositions, joinSubs]
    | cons c rest =>
      rw [replaceGoSub, splitGo, occPositions]
      by_cases h : startsW eqCh pat (c :: rest) = true
      · rw [if_pos h, if_pos h, if_pos h, ih]
        simp [joinSubs]
      · have h' : startsW eqCh pat (c :: rest) = false := by
          cases hq : startsW eqCh pat (c :: rest)
          · rfl
          · exact absurd hq h
        rw [if_neg (by simp [h']), if_neg (by simp [h']), if_neg (by simp [h']), ih]
        cases hsg : splitGo eqCh pat fuel rest with
        | nil => exact absurd hsg (splitGo_ne_nil eqCh pat fuel rest)
        | cons a as =>
          cases hoc : occPositions pat fuel (pos + 1) rest with
          | nil => simp [joinSubs]
          | cons p ps => simp [joinSubs]

theorem contains_quoted_contains_marker {marker code : List Char}
    (h : containsLit (markerQuoted marker) code = true) :
    containsLit marker code = true := by
  obtain ⟨a, b, hab⟩ := (containsW_eqCh_iff _ code).mp h
  refine (containsW_eqCh_iff _ code).mpr ⟨a ++ ['"'], '"' :: b, ?_⟩
  rw [hab, markerQuoted]
  simp

theorem replaceMarkerInChunks_map (bundle : Bundle) (marker content : List Char) :
    replaceMarkerInChunks bundle marker content =
      bundle.map (fun kv =>
        match kv.2 with
        | ROutput.chunk code icss =>
          (kv.1, ROutput.chunk (replaceMarkerInText code marker content) icss)
        | ROutput.asset _ => kv) := by
  rw [replaceMarkerInChunks]
  refine List.map_congr_left (fun kv _ => ?_)
  rcases kv with ⟨name, out⟩
  cases out with
  | asset s => rfl
  | chunk code icss =>
    simp only
    by_cases h : containsLit marker code = true
    · rw [if_pos h]
    · have hf : containsLit marker code = false := by
        cases hq : containsLit marker code
        · rfl
        · exact absurd hq h
      have hq : containsLit (markerQuoted marker) code = false := by
        cases hqq : containsLit (markerQuoted marker) code
        · rfl
        · exact absurd (contains_quoted_contains_marker hqq) (by simp [hf])
      rw [if_neg (by simp [hf]), replaceMarkerInText,
        replaceGoSub_id_of_not_contains _ _ _ _ _ hq]

/-- Claim C1 (amended): once content is obtained for a registry marker,
the finalization step rewrites every chunk-type artifact of the bundle —
all of them, not just the first — replacing every double-quoted occurrence
of the marker by the ES string substitution (GetSubstitution, no capture
groups) of JSON.stringify of the obtained content, evaluated at that
occurrence's position: the result interleaves those substitutions with the
segments between the leftmost non-overlapping occurrences of the quoted
marker.  For content whose JSON literal holds no dollar escape this is
exactly the JSON string literal of the content.  Asset-type artifacts are
not scanned. -/
theorem claim1_amended (bundle : Bundle) (marker : List Char) (entry : InlineEntry)
    (getF readF : List Char → Option (List Char)) (c : List Char) (b2 : Bundle)
    (h : obtainContent bundle entry getF readF = (some c, b2)) :
    processInlineMarker getF readF bundle (marker, entry) =
      b2.map (fun kv =>
        match kv.2 with
        | ROutput.chunk code icss =>
          (kv.1, ROutput.chunk (replaceMarkerInText code marker c) icss)
        | ROutput.asset _ => kv) ∧
    ∀ text : List Char,
      replaceMarkerInText text marker c =
        joinSubs
          (fun pos => getSubstitution (markerQuoted marker) text pos (jsonStringify c))
          (splitOnL eqCh (markerQuoted marker) text)
          (occPositions (markerQuoted marker) text.length 0 text) := by
  constructor
  · simp only [processInlineMarker, h]
    exact replaceMarkerInChunks_map b2 marker c
  · intro text
    rw [replaceMarkerInText, splitOnL, replaceGoSub_eq_joinSubs]

def cxChunkCode : List Char := str "var a = \"__INLINE_BUILD_0__\";"

def cxAssetSrc : List Char := str "use(\"__INLINE_BUILD_0__\")"

def cxBundle : Bundle :=
  [(str "a.js", ROutput.chunk cxChunkCode none),
   (str "page.html", ROutput.asset cxAssetSrc)]

def cxEntry : InlineEntry := ⟨str "/f.js", FileKind.js, none⟩

/-- Claim C1 counterexample: content is obtained for the registered marker
(the chunk artifact is rewritten, proving it), yet the textual asset
artifact of the same output set still contains the marker as a double-quoted
literal after finalization — the marker is not replaced in every textual
artifact, only in chunk-type artifacts. -/
theorem claim1_counterexample :
    replaceInlineMarkersInBundle cxBundle [(markerName 0, cxEntry)]
        (fun _ => none) (fun _ => some (str "OK")) =
      [(str "a.js", ROutput.chunk (str "var a = \"OK\";") none),
       (str "page.html", ROutput.asset cxAssetSrc)] ∧
    containsLit (markerQuoted (markerName 0)) cxAssetSrc = true := by decide

/-- Claim C1 (amended) witness: a concrete registry entry whose content is
obtained by the raw-file fallback, with the bundle rewritten chunk-wise. -/
theorem claim1_amended_witness :
    obtainContent cxBundle cxEntry (fun _ => none) (fun _ => some (str "OK")) =
      (some (str "OK"), cxBundle) ∧
    processInlineMarker (fun _ => none) (fun _ => some (str "OK")) cxBundle
        (markerName 0, cxEntry) =
      cxBundle.map (fun kv =>
        match kv.2 with
        | ROutput.chunk code icss =>
          (kv.1, ROutput.chunk (replaceMarkerInText code (markerName 0) (str "OK")) icss)
        | ROutput.asset _ => kv) :=
  ⟨by decide,
   (claim1_amended cxBundle (markerName 0) cxEntry (fun _ => none)
      (fun _ => some (str "OK")) (str "OK") cxBundle (by decide)).1⟩

end InlineSource
